import Mathlib

/-!
Verification of the simpleDOM element-set wrapper (src/simpledom.js).

The source is shallowly embedded: JS strings are lists of characters,
DOM elements are records carrying their class attribute and attribute
nodes, and the wrapper instance (`simpleDOMEngine`) is a record holding
the raw selector plus its array-like indexed contents.  The regular
expression `(?:^|\s)NAME(?!\S)` built by `removeClass`/`hasClass` is
embedded as an explicit backtracking matcher; it is faithful for class
names whose characters are regex-literal (alphanumeric, dash,
underscore), for the dot metacharacter, which JS treats as a wildcard,
and for the one-or-more quantifier `+` attached to a single-character
atom.
-/

set_option maxHeartbeats 1000000

namespace SimpleDOM

/-- JS strings, modelled as lists of characters. -/
abbrev Str := List Char

/-- The characters matched by the regex class `\s` that are relevant here
(JS additionally includes some unicode spaces, never used by this code). -/
def isJsSpace (c : Char) : Bool :=
  c = ' ' || c = '\t' || c = '\n' || c = '\r' || c = '\x0b' || c = '\x0c'

/-- Characters that stand for themselves inside a JS regular expression. -/
def plainChar (c : Char) : Bool :=
  c.isAlphanum || c = '-' || c = '_'

/-- A host DOM element: its `className` string, its attribute nodes,
whether the host exposes `hasAttribute` on it, and the names of its
defined JS properties (used by the legacy `this[0][attr] === undefined`
check). -/
structure Elem where
  className : Str
  attrs : List (Str × Str)
  supportsHasAttribute : Bool
  props : List Str
deriving DecidableEq

/-- The three selector shapes dispatched on by `typeof` in the source:
an element reference (`"object"`), a readiness callback (`"function"`,
identified by a callback id), or a query string. -/
inductive Selector where
  | objRef (e : Elem)
  | callback (cid : Nat)
  | queryStr (s : Str)
deriving DecidableEq

/-- The wrapper instance: the constructor assigns `this._raw_selector`,
and `elems` models the array-like indexed contents `this[0..length-1]`
together with `this.length`. -/
structure Engine where
  raw_selector : Selector
  elems : List Elem
deriving DecidableEq

/-- The host document: query capabilities, the single
`onreadystatechange` handler slot (a callback id), and `readyState`. -/
structure HostDoc where
  qsaAvailable : Bool
  qsa : Str → List Elem
  byId : Str → Option Elem
  byTag : Str → List Elem
  onreadystatechange : Option Nat
  readyState : Str

/-- A value appearing in the constructor's local `_matches` array: an
element, `null` (from `getElementById` missing), or a whole live
collection wrapped as one entry (the tag-name fallback). -/
inductive DomVal where
  | elemV (e : Elem)
  | nullV
  | collectionV (es : List Elem)
deriving DecidableEq

/-- `selector.replace('#','')`: removes the first `#` only. -/
def stripFirstHash : Str → Str
  | [] => []
  | c :: cs => if c = '#' then cs else c :: stripFirstHash cs

/-- The computation of the constructor's local variable `_matches`
(source lines 41-60). -/
def resolveMatches (doc : HostDoc) (sel : Selector) : List DomVal :=
  match sel with
  | Selector.objRef e => [DomVal.elemV e]
  | Selector.callback _ => []
  | Selector.queryStr s =>
    if doc.qsaAvailable then
      (doc.qsa s).map DomVal.elemV
    else
      match s with
      | '#' :: _ =>
        match doc.byId (stripFirstHash s) with
        | some e => [DomVal.elemV e]
        | none => [DomVal.nullV]
      | _ => [DomVal.collectionV (doc.byTag s)]

/-- `ready` (source lines 99-106): a no-op for a non-callable argument,
otherwise assigns the single `document.onreadystatechange` slot. -/
def ready (doc : HostDoc) (callable : Bool) (cid : Nat) : HostDoc :=
  if callable then { doc with onreadystatechange := some cid } else doc

def completeState : Str := ['c', 'o', 'm', 'p', 'l', 'e', 't', 'e']

def loadedState : Str := ['l', 'o', 'a', 'd', 'e', 'd']

/-- The handler installed by `ready` (source lines 101-105): when the
readystatechange event fires it invokes the stored closure, with no
arguments, exactly when `readyState` is `"complete"` or `"loaded"`.
Returns the list of callback ids invoked. -/
def fireReadyStateChange (doc : HostDoc) : List Nat :=
  match doc.onreadystatechange with
  | none => []
  | some cid =>
    if doc.readyState = completeState ∨ doc.readyState = loadedState then [cid] else []

/-- The `simpleDOMEngine` constructor (source lines 37-63).  It assigns
`this._raw_selector`, computes the local `_matches`, and for a function
selector calls `this.ready(selector)`.  The local `_matches` is never
copied onto `this`, so the instance ends up with no indexed elements and
no `length` property. -/
def simpleDOMEngine (doc : HostDoc) (sel : Selector) : Engine × HostDoc :=
  let _matches := resolveMatches doc sel
  let doc2 := match sel with
              | Selector.callback cid => ready doc true cid
              | _ => doc
  ({ raw_selector := sel, elems := [] }, doc2)

/-- The call trace of the `each` loop (source lines 88-90): one entry per
iteration, pairing the receiver `this[n]` with the sole argument `n`. -/
def eachTrace : List Elem → Nat → List (Elem × Nat)
  | [], _ => []
  | e :: es, n => (e, n) :: eachTrace es (n + 1)

/-- `each` (source lines 86-92): returns `false` (modelled `none`) for a
non-callable closure with no iteration; otherwise iterates the trace and
returns the wrapper itself. -/
def each (eng : Engine) (callable : Bool) : Option Engine × List (Elem × Nat) :=
  if callable then (some eng, eachTrace eng.elems 0) else (none, [])

/-- `String.prototype.split(' ')`: splits on every single space. -/
def splitOnSpace : Str → List Str
  | [] => [[]]
  | c :: cs =>
    if c = ' ' then [] :: splitOnSpace cs
    else
      match splitOnSpace cs with
      | [] => [[c]]
      | t :: ts => (c :: t) :: ts

/-- `Array.prototype.join(' ')`. -/
def joinSpace : List Str → Str
  | [] => []
  | [s] => s
  | s :: rest => s ++ ' ' :: joinSpace rest

/-- `getClasses` (source lines 113-115): an empty class attribute yields
the empty list, otherwise `className.split(' ')`. -/
def getClasses (e : Elem) : List Str :=
  if e.className = [] then [] else splitOnSpace e.className

/-- `addClass` (source lines 122-129): for every element, pushes the new
name onto `getClasses` and rewrites `className` joined by one space. -/
def addClass (eng : Engine) (className : Str) : Engine :=
  { eng with elems := eng.elems.map fun e =>
      { e with className := joinSpace (getClasses e ++ [className]) } }

/-- One atom of the interpolated regular expression: `.` is the JS
wildcard (anything but a line terminator), other characters used by the
claims are literals. -/
def atomMatches (p c : Char) : Bool :=
  if p = '.' then !(c == '\n' || c == '\r') else p == c

/-- The trailing lookahead `(?!\S)`: succeeds at end of input or before a
whitespace character (inlined into `patNil`/`patStep` below). -/
def lookaheadOk : Str → Bool
  | [] => true
  | c :: _ => isJsSpace c

/-- The quantifier carried by one atom of the interpolated pattern: a
bare atom, `+` (one or more, as written in the class name), or the
internal zero-or-more state a `+` atom enters after consuming its first
character. -/
inductive Quant where
  | one
  | plus
  | star
deriving DecidableEq

/-- Compilation of the interpolated class name into pattern atoms: a
character followed by `+` becomes a one-or-more atom; any other
character is a single atom (`.` stays the wildcard, see
`atomMatches`). -/
def parsePat : Str → List (Char × Quant)
  | [] => []
  | [p] => [(p, Quant.one)]
  | p :: q :: ps =>
    if q = '+' then (p, Quant.plus) :: parsePat ps
    else (p, Quant.one) :: parsePat (q :: ps)

/-- Matching the remaining pattern against an empty input: only `star`
items can be dropped, and the `(?!\S)` lookahead holds at end of
input. -/
def patNil : List (Char × Quant) → Option Nat
  | [] => some 0
  | (_, Quant.one) :: _ => none
  | (_, Quant.plus) :: _ => none
  | (_, Quant.star) :: ps => patNil ps

/-- One scanning step of the backtracking matcher at input head `c`,
where `next` matches any remaining pattern against the input's tail.  A
`star` atom greedily prefers consuming another character and falls back
to the rest of the pattern, as the JS engine does; an exhausted pattern
must pass the `(?!\S)` lookahead at `c`. -/
def patStep (c : Char) (next : List (Char × Quant) → Option Nat) :
    List (Char × Quant) → Option Nat
  | [] => if isJsSpace c then some 0 else none
  | (p, Quant.one) :: ps =>
    if atomMatches p c then (next ps).map (fun n => n + 1) else none
  | (p, Quant.plus) :: ps =>
    if atomMatches p c then (next ((p, Quant.star) :: ps)).map (fun n => n + 1)
    else none
  | (p, Quant.star) :: ps =>
    if atomMatches p c then
      match next ((p, Quant.star) :: ps) with
      | some n => some (n + 1)
      | none => patStep c next ps
    else patStep c next ps

/-- Greedy backtracking match of the compiled pattern, followed by the
`(?!\S)` lookahead, against a prefix of the input; returns the number of
characters consumed. -/
def patLen : Str → List (Char × Quant) → Option Nat
  | [], pat => patNil pat
  | c :: cs, pat => patStep c (patLen cs) pat

/-- The `^` alternative of `(?:^|\s)`: consumes nothing, only available
at the start of the input string; the interpolated name then matches as
a compiled pattern. -/
def viaCaret (name : Str) (atStart : Bool) (s : Str) : Option Nat :=
  if atStart then patLen s (parsePat name) else none

/-- The `\s` alternative of `(?:^|\s)`: consumes one whitespace character
before the interpolated name. -/
def viaSpace (name : Str) (s : Str) : Option Nat :=
  match s with
  | [] => none
  | c :: cs =>
    if isJsSpace c then (patLen cs (parsePat name)).map (fun n => n + 1)
    else none

/-- Attempt to match `(?:^|\s)name(?!\S)` at the current position,
preferring the `^` alternative as the JS engine does; returns the number
of characters consumed. -/
def tryAtPos (name : Str) (atStart : Bool) (s : Str) : Option Nat :=
  match viaCaret name atStart s with
  | some n => some n
  | none => viaSpace name s

/-- Scanning for a match from left to right, as `String.prototype.match`
and a non-global `replace` do. -/
def hasMatchAux (name : Str) : Bool → Str → Bool
  | atStart, [] => (tryAtPos name atStart []).isSome
  | atStart, c :: cs =>
    match tryAtPos name atStart (c :: cs) with
    | some _ => true
    | none => hasMatchAux name false cs

/-- `className.replace(regex, '')` for a regex without the global flag:
removes the first match only; an unmatched string is returned unchanged. -/
def replAux (name : Str) : Bool → Str → Str
  | _, [] => []
  | atStart, c :: cs =>
    match tryAtPos name atStart (c :: cs) with
    | some n => List.drop n (c :: cs)
    | none => c :: replAux name false cs

/-- The per-element effect of `removeClass` (source line 138). -/
def removeClassElem (className s : Str) : Str := replAux className true s

/-- `removeClass` (source lines 135-141): builds the regex once and
replaces on every element's `className`. -/
def removeClass (eng : Engine) (className : Str) : Engine :=
  { eng with elems := eng.elems.map fun e =>
      { e with className := removeClassElem className e.className } }

/-- `hasClass` (source lines 152-158): tests the first element only,
returning `false` on an empty set; the truthiness of
`className.match(regex) || false` is modelled as a `Bool`. -/
def hasClass (eng : Engine) (className : Str) : Bool :=
  match eng.elems with
  | e :: _ => hasMatchAux className true e.className
  | [] => false

/-- Host-level errors the embedding makes explicit: dereferencing a
missing `this[0]` and the read of the undeclared variable `val`. -/
inductive JsError where
  | typeError
  | referenceError
deriving DecidableEq

/-- What `attr` returns: the read path yields the attribute value (or
null), the write path yields the wrapper. -/
inductive AttrResult where
  | readValue (v : Option Str)
  | chained (eng : Engine)
deriving DecidableEq

/-- `getAttribute`: the attribute node's value, or null (`none`). -/
def getAttribute (e : Elem) (a : Str) : Option Str :=
  (e.attrs.find? fun p => p.1 == a).map Prod.snd

/-- The `hasAttr` computation of `attr` (source lines 244-249): native
`hasAttribute` when available, otherwise `!(this[0][attr] === undefined)`. -/
def hasAttributeCheck (e : Elem) (a : Str) : Bool :=
  if e.supportsHasAttribute then (e.attrs.find? fun p => p.1 == a).isSome
  else e.props.contains a

/-- `setAttribute`. -/
def setAttribute (e : Elem) (a v : Str) : Elem :=
  { e with attrs := (e.attrs.filter fun p => !(p.1 == a)) ++ [(a, v)] }

/-- `removeAttribute`. -/
def removeAttribute (e : Elem) (a : Str) : Elem :=
  { e with attrs := e.attrs.filter fun p => !(p.1 == a) }

/-- `attr` (source lines 239-263).  `value = none` models the
one-argument read call (`value === undefined`).  Both paths dereference
`this[0]`, which throws a TypeError on an empty set.  When the attribute
is absent, the creation branch executes `newAttr.value = val` (source
line 258); `val` is not declared in any enclosing scope, so the branch
throws a ReferenceError instead of attaching the node. -/
def attr (eng : Engine) (a : Str) (value : Option Str) : Except JsError AttrResult :=
  match value with
  | none =>
    match eng.elems with
    | [] => Except.error JsError.typeError
    | e :: _ => Except.ok (AttrResult.readValue (getAttribute e a))
  | some v =>
    match eng.elems with
    | [] => Except.error JsError.typeError
    | e :: rest =>
      if hasAttributeCheck e a then
        if v = [] then
          Except.ok (AttrResult.chained { eng with elems := removeAttribute e a :: rest })
        else
          Except.ok (AttrResult.chained { eng with elems := setAttribute e a v :: rest })
      else Except.error JsError.referenceError

/-- Spec-side left boundary: the occurrence is preceded by the start of
the string (only available at an initial position) or by a whitespace
character. -/
def LeftB (atStart : Bool) (pre : Str) : Prop :=
  (atStart = true ∧ pre = []) ∨ ∃ p w, pre = p ++ [w] ∧ isJsSpace w = true

/-- Spec-side right boundary: the occurrence is followed by the end of
the string or by a whitespace character. -/
def RightB (post : Str) : Prop :=
  post = [] ∨ ∃ c r, post = c :: r ∧ isJsSpace c = true

/-- Spec-side statement that `name` occurs in `s` as a standalone
whitespace-delimited token (generalised by the `atStart` flag so the
scanning lemmas can recurse). -/
def OccursFrom (name : Str) (atStart : Bool) (s : Str) : Prop :=
  ∃ pre post, s = pre ++ name ++ post ∧ LeftB atStart pre ∧ RightB post

/-- A default element, used only as a `getD` fallback. -/
def dummyElem : Elem := ⟨[], [], true, []⟩

def fooName : Str := ['f', 'o', 'o']

def barFooClass : Str := ['b', 'a', 'r', ' ', 'f', 'o', 'o']

def aName : Str := ['a']

def aPlusName : Str := ['a', '+']

def bName : Str := ['b']

def xyClass : Str := ['x', 'y']

def aaClass : Str := ['a', ' ', 'a']

def aDotC : Str := ['a', '.', 'c']

def abcClass : Str := ['a', 'b', 'c']

def divQuery : Str := ['d', 'i', 'v']

def titleAttr : Str := ['t', 'i', 't', 'l', 'e']

def hashMissing : Str := ['#', 'm', 'i', 's', 's', 'i', 'n', 'g']

def dataXAttr : Str := ['d', 'a', 't', 'a', '-', 'x']

def oneVal : Str := ['1']

def elemD1 : Elem := ⟨['d', '1'], [], true, []⟩

def elemD2 : Elem := ⟨['d', '2'], [], true, []⟩

/-- A host with native `querySelectorAll` on which the query `"div"`
matches exactly `elemD1` and `elemD2`, in that order. -/
def docW : HostDoc :=
  { qsaAvailable := true
    qsa := fun s => if s = divQuery then [elemD1, elemD2] else []
    byId := fun _ => none
    byTag := fun _ => []
    onreadystatechange := none
    readyState := [] }

/-- A host whose handler slot holds callback 7 and whose load state is
complete. -/
def docReady : HostDoc :=
  { qsaAvailable := false
    qsa := fun _ => []
    byId := fun _ => none
    byTag := fun _ => []
    onreadystatechange := some 7
    readyState := completeState }

def elemAbc : Elem := ⟨abcClass, [], true, []⟩

def engAbc : Engine := ⟨Selector.queryStr [], [elemAbc]⟩

def elemAA : Elem := ⟨aaClass, [], true, []⟩

def engAA : Engine := ⟨Selector.queryStr [], [elemAA]⟩

def elemBarFoo : Elem := ⟨barFooClass, [], true, []⟩

def engBarFoo : Engine := ⟨Selector.queryStr [], [elemBarFoo, dummyElem]⟩

def engEmptyCls : Engine := ⟨Selector.queryStr [], [dummyElem]⟩

def engThree : Engine := ⟨Selector.queryStr [], [elemD1, elemD2, elemAbc]⟩

theorem splitOnSpace_ne_nil (s : Str) : splitOnSpace s ≠ [] := by
  cases s with
  | nil => simp [splitOnSpace]
  | cons c cs =>
    simp only [splitOnSpace]
    split
    · simp
    · split <;> simp

theorem splitOnSpace_no_space (s : Str) : ∀ x ∈ splitOnSpace s, ' ' ∉ x := by
  induction s with
  | nil =>
    intro x hx
    simp only [splitOnSpace, List.mem_singleton] at hx
    simp [hx]
  | cons c cs ih =>
    intro x hx
    simp only [splitOnSpace] at hx
    by_cases hc : c = ' '
    · rw [if_pos hc] at hx
      rcases List.mem_cons.mp hx with h | h
      · simp [h]
      · exact ih x h
    · rw [if_neg hc] at hx
      rcases hsp : splitOnSpace cs with _ | ⟨t, ts⟩
      · exact absurd hsp (splitOnSpace_ne_nil cs)
      · rw [hsp] at hx
        rcases List.mem_cons.mp hx with h | h
        · subst h
          intro hmem
          rcases List.mem_cons.mp hmem with h2 | h2
          · exact hc h2.symm
          · exact ih t (by rw [hsp]; exact List.mem_cons_self t ts) h2
        · exact ih x (by rw [hsp]; exact List.mem_cons_of_mem t h)

theorem splitOnSpace_of_no_space : ∀ (x : Str), ' ' ∉ x → splitOnSpace x = [x]
  | [], _ => rfl
  | c :: cs, h => by
    have hc : ¬ c = ' ' := fun hcc => h (by rw [hcc]; exact List.mem_cons_self ' ' cs)
    have hcs : ' ' ∉ cs := fun hm => h (List.mem_cons_of_mem c hm)
    simp only [splitOnSpace, if_neg hc, splitOnSpace_of_no_space cs hcs]

theorem splitOnSpace_append_space : ∀ (x r : Str), ' ' ∉ x →
    splitOnSpace (x ++ ' ' :: r) = x :: splitOnSpace r
  | [], r, _ => by simp [splitOnSpace]
  | c :: cs, r, h => by
    have hc : ¬ c = ' ' := fun hcc => h (by rw [hcc]; exact List.mem_cons_self ' ' cs)
    have hcs : ' ' ∉ cs := fun hm => h (List.mem_cons_of_mem c hm)
    simp only [List.cons_append, splitOnSpace, List.append_eq, if_neg hc,
      splitOnSpace_append_space cs r hcs]

theorem splitOnSpace_joinSpace : ∀ (L : List Str), L ≠ [] → (∀ x ∈ L, ' ' ∉ x) →
    splitOnSpace (joinSpace L) = L
  | [], hne, _ => absurd rfl hne
  | [x], _, h => by
    simpa [joinSpace] using splitOnSpace_of_no_space x (h x (by simp))
  | x :: y :: L2, _, h => by
    have hx : ' ' ∉ x := h x (by simp)
    have hrec : splitOnSpace (joinSpace (y :: L2)) = y :: L2 :=
      splitOnSpace_joinSpace (y :: L2) (by simp)
        (fun z hz => h z (List.mem_cons_of_mem x hz))
    simp only [joinSpace, splitOnSpace_append_space x _ hx, hrec]

theorem joinSpace_concat_ne_nil : ∀ (M : List Str) (x : Str), x ≠ [] →
    joinSpace (M ++ [x]) ≠ []
  | [], x, hx => by simpa [joinSpace] using hx
  | m :: M2, x, _ => by
    cases M2 with
    | nil => simp [joinSpace]
    | cons m2 M3 => simp [joinSpace]

theorem eachTrace_length : ∀ (es : List Elem) (n : Nat),
    (eachTrace es n).length = es.length
  | [], _ => rfl
  | e :: es, n => by simp [eachTrace, eachTrace_length es (n + 1)]

theorem eachTrace_get : ∀ (es : List Elem) (k i : Nat),
    (eachTrace es k).get? i = (es.get? i).map (fun e => (e, k + i))
  | [], _, _ => by simp [eachTrace]
  | e :: es, k, 0 => by simp [eachTrace]
  | e :: es, k, i + 1 => by
    simp only [eachTrace, List.get?]
    rw [eachTrace_get es (k + 1) i, show k + 1 + i = k + (i + 1) from by omega]

theorem plainChar_ne_dot {c : Char} (h : plainChar c = true) : c ≠ '.' := by
  intro he
  subst he
  exact absurd h (by decide)

theorem plainChar_ne_space {c : Char} (h : plainChar c = true) : c ≠ ' ' := by
  intro he
  subst he
  exact absurd h (by decide)

theorem plainChar_ne_plus {c : Char} (h : plainChar c = true) : c ≠ '+' := by
  intro he
  subst he
  exact absurd h (by decide)

theorem atomMatches_plain {p c : Char} (h : plainChar p = true) :
    atomMatches p c = true ↔ p = c := by
  rw [atomMatches, if_neg (plainChar_ne_dot h)]
  exact beq_iff_eq

theorem lookaheadOk_iff (post : Str) : lookaheadOk post = true ↔ RightB post := by
  cases post with
  | nil => simp [lookaheadOk, RightB]
  | cons c r =>
    simp only [lookaheadOk, RightB]
    constructor
    · intro h
      exact Or.inr ⟨c, r, rfl, h⟩
    · rintro (h | ⟨c2, r2, heq, hw⟩)
      · exact absurd h (by simp)
      · injection heq with h1 _
        rwa [h1]

theorem parsePat_plain : ∀ (name : Str), (∀ c ∈ name, plainChar c = true) →
    parsePat name = name.map (fun c => (c, Quant.one))
  | [], _ => rfl
  | [_], _ => rfl
  | p :: q :: ps, h => by
    have hq : ¬ q = '+' := plainChar_ne_plus (h q (by simp))
    rw [show parsePat (p :: q :: ps)
        = if q = '+' then (p, Quant.plus) :: parsePat ps
          else (p, Quant.one) :: parsePat (q :: ps) from rfl]
    rw [if_neg hq, parsePat_plain (q :: ps) (fun a ha => h a (by simp [ha]))]
    rfl

theorem patLen_nil_pat (s : Str) :
    patLen s [] = if lookaheadOk s then some 0 else none := by
  cases s <;> rfl

theorem patLen_one_cons (p : Char) (ps : List (Char × Quant)) (c : Char) (cs : Str) :
    patLen (c :: cs) ((p, Quant.one) :: ps)
      = if atomMatches p c then (patLen cs ps).map (fun n => n + 1) else none := rfl

theorem patLen_ones : ∀ (name : Str), (∀ c ∈ name, plainChar c = true) →
    ∀ (s : Str) (n : Nat),
    (patLen s (name.map (fun c => (c, Quant.one))) = some n ↔
      ∃ post, s = name ++ post ∧ RightB post ∧ n = name.length)
  | [], _, s, n => by
    rw [List.map_nil, patLen_nil_pat]
    by_cases hl : lookaheadOk s = true
    · rw [if_pos hl]
      constructor
      · intro h
        injection h with hn
        exact ⟨s, rfl, (lookaheadOk_iff s).mp hl, hn.symm⟩
      · rintro ⟨post, hs, _, hn⟩
        simp [hn]
    · rw [if_neg hl]
      constructor
      · intro h
        exact Option.noConfusion h
      · rintro ⟨post, hs, hR, _⟩
        subst hs
        exact absurd ((lookaheadOk_iff _).mpr hR) hl
  | p :: ps, hpl, s, n => by
    have hp : plainChar p = true := hpl p (by simp)
    have hps : ∀ a ∈ ps, plainChar a = true := fun a ha => hpl a (by simp [ha])
    cases s with
    | nil =>
      rw [List.map_cons]
      constructor
      · intro h
        exact Option.noConfusion h
      · rintro ⟨post, hs, _, _⟩
        exact absurd hs (by simp)
    | cons c cs =>
      rw [List.map_cons, patLen_one_cons]
      by_cases hpc : p = c
      · rw [if_pos ((atomMatches_plain hp).mpr hpc)]
        constructor
        · intro h
          rcases Option.map_eq_some'.mp h with ⟨m, hm, hn⟩
          rcases (patLen_ones ps hps cs m).mp hm with ⟨post, hcs, hR, hml⟩
          exact ⟨post, by simp [List.cons_append, hcs, hpc], hR, by
            rw [← hn, hml]
            rfl⟩
        · rintro ⟨post, hs, hR, hn⟩
          have hcs : cs = ps ++ post := by
            rw [List.cons_append, List.cons.injEq] at hs
            exact hs.2
          apply Option.map_eq_some'.mpr
          exact ⟨ps.length, (patLen_ones ps hps cs ps.length).mpr ⟨post, hcs, hR, rfl⟩,
            by rw [hn]; rfl⟩
      · rw [if_neg (fun hh => hpc ((atomMatches_plain hp).mp hh))]
        constructor
        · intro h
          exact Option.noConfusion h
        · rintro ⟨post, hs, _, _⟩
          rw [List.cons_append, List.cons.injEq] at hs
          exact absurd hs.1.symm hpc

theorem viaCaret_some {name : Str} (hpl : ∀ c ∈ name, plainChar c = true)
    {atStart : Bool} {s : Str} {n : Nat} (h : viaCaret name atStart s = some n) :
    atStart = true ∧ ∃ post, s = name ++ post ∧ RightB post ∧ n = name.length := by
  cases atStart with
  | false => exact absurd h (by simp [viaCaret])
  | true =>
    refine ⟨rfl, ?_⟩
    have h2 : patLen s (parsePat name) = some n := h
    rw [parsePat_plain name hpl] at h2
    exact (patLen_ones name hpl s n).mp h2

theorem viaCaret_fires {name : Str} (hpl : ∀ c ∈ name, plainChar c = true)
    {post : Str} (hpost : RightB post) :
    viaCaret name true (name ++ post) = some name.length := by
  show patLen (name ++ post) (parsePat name) = some name.length
  rw [parsePat_plain name hpl]
  exact (patLen_ones name hpl (name ++ post) name.length).mpr ⟨post, rfl, hpost, rfl⟩

theorem viaSpace_some {name : Str} (hpl : ∀ c ∈ name, plainChar c = true)
    {s : Str} {n : Nat} (h : viaSpace name s = some n) :
    ∃ w post, s = w :: (name ++ post) ∧ isJsSpace w = true ∧ RightB post ∧
      n = name.length + 1 := by
  cases s with
  | nil => exact absurd h (by simp [viaSpace])
  | cons c cs =>
    have h2 : (if isJsSpace c
        then (patLen cs (parsePat name)).map (fun n => n + 1) else none) = some n := h
    by_cases hw : isJsSpace c = true
    · rw [if_pos hw] at h2
      rcases Option.map_eq_some'.mp h2 with ⟨m, hm, hn⟩
      rw [parsePat_plain name hpl] at hm
      rcases (patLen_ones name hpl cs m).mp hm with ⟨post, hcs, hR, hml⟩
      exact ⟨c, post, by rw [hcs], hw, hR, by omega⟩
    · rw [if_neg hw] at h2
      exact Option.noConfusion h2

theorem viaSpace_fires {name : Str} (hpl : ∀ c ∈ name, plainChar c = true)
    {w : Char} {post : Str} (hw : isJsSpace w = true) (hpost : RightB post) :
    viaSpace name (w :: (name ++ post)) = some (name.length + 1) := by
  show (if isJsSpace w
      then (patLen (name ++ post) (parsePat name)).map (fun n => n + 1) else none)
    = some (name.length + 1)
  rw [if_pos hw, parsePat_plain name hpl,
    (patLen_ones name hpl (name ++ post) name.length).mpr ⟨post, rfl, hpost, rfl⟩]
  rfl

theorem tryAtPos_some {name : Str} (hpl : ∀ c ∈ name, plainChar c = true)
    {atStart : Bool} {s : Str} {n : Nat} (h : tryAtPos name atStart s = some n) :
    ∃ pre post, s = pre ++ name ++ post ∧ LeftB atStart pre ∧ RightB post ∧
      List.drop n s = post ∧ pre.dropLast = [] := by
  unfold tryAtPos at h
  rcases hv : viaCaret name atStart s with _ | m
  · rw [hv] at h
    obtain ⟨w, post, hs, hw, hpost, hn⟩ := viaSpace_some hpl h
    subst hn
    refine ⟨[w], post, by simp [hs], Or.inr ⟨[], w, rfl, hw⟩, hpost, ?_, rfl⟩
    rw [hs]
    simp [List.drop_succ_cons, List.drop_left]
  · rw [hv] at h
    injection h with hnm
    subst hnm
    obtain ⟨ha, post, hs, hpost, hn⟩ := viaCaret_some hpl hv
    subst hn
    refine ⟨[], post, by simp [hs], Or.inl ⟨ha, rfl⟩, hpost, ?_, rfl⟩
    rw [hs]
    exact List.drop_left name post

theorem tryAtPos_isSome_caret {name : Str} (hpl : ∀ c ∈ name, plainChar c = true)
    {post : Str} (hpost : RightB post) :
    (tryAtPos name true (name ++ post)).isSome = true := by
  simp only [tryAtPos, viaCaret_fires hpl hpost, Option.isSome_some]

theorem tryAtPos_isSome_space {name : Str} (hpl : ∀ c ∈ name, plainChar c = true)
    {w : Char} {post : Str} (hw : isJsSpace w = true) (hpost : RightB post)
    (atStart : Bool) :
    (tryAtPos name atStart (w :: (name ++ post))).isSome = true := by
  rcases hv : viaCaret name atStart (w :: (name ++ post)) with _ | m
  · simp only [tryAtPos, hv, viaSpace_fires hpl hw hpost, Option.isSome_some]
  · simp only [tryAtPos, hv, Option.isSome_some]

theorem hasMatchAux_nil (name : Str) (atStart : Bool) :
    hasMatchAux name atStart [] = (tryAtPos name atStart []).isSome := rfl

theorem hasMatchAux_cons_some {name : Str} {atStart : Bool} {c : Char} {cs : Str}
    {m : Nat} (ht : tryAtPos name atStart (c :: cs) = some m) :
    hasMatchAux name atStart (c :: cs) = true := by
  simp only [hasMatchAux, ht]

theorem hasMatchAux_cons_none {name : Str} {atStart : Bool} {c : Char} {cs : Str}
    (ht : tryAtPos name atStart (c :: cs) = none) :
    hasMatchAux name atStart (c :: cs) = hasMatchAux name false cs := by
  simp only [hasMatchAux, ht]

theorem replAux_cons_some {name : Str} {atStart : Bool} {c : Char} {cs : Str}
    {m : Nat} (ht : tryAtPos name atStart (c :: cs) = some m) :
    replAux name atStart (c :: cs) = List.drop m (c :: cs) := by
  simp only [replAux, ht]

theorem replAux_cons_none {name : Str} {atStart : Bool} {c : Char} {cs : Str}
    (ht : tryAtPos name atStart (c :: cs) = none) :
    replAux name atStart (c :: cs) = c :: replAux name false cs := by
  simp only [replAux, ht]

theorem occurs_hasMatch {name : Str} (hpl : ∀ c ∈ name, plainChar c = true) :
    ∀ (pre post : Str) (atStart : Bool), LeftB atStart pre → RightB post →
    hasMatchAux name atStart (pre ++ name ++ post) = true
  | [], post, atStart, hL, hR => by
    have ha : atStart = true := by
      rcases hL with ⟨ha, _⟩ | ⟨p, w, hp, _⟩
      · exact ha
      · exact absurd hp.symm (by simp)
    subst ha
    have hsome := tryAtPos_isSome_caret hpl hR
    rcases hnp : name ++ post with _ | ⟨c, cs⟩
    · rw [hnp] at hsome
      simp only [List.nil_append, hnp, hasMatchAux_nil]
      exact hsome
    · rw [hnp] at hsome
      simp only [List.nil_append, hnp]
      rcases ht : tryAtPos name true (c :: cs) with _ | m
      · rw [ht] at hsome
        exact absurd hsome (by simp)
      · exact hasMatchAux_cons_some ht
  | a :: pre2, post, atStart, hL, hR => by
    rcases hL with ⟨_, hcontra⟩ | ⟨p, w, hp, hw⟩
    · exact absurd hcontra (by simp)
    · cases pre2 with
      | nil =>
        have hwa : w = a := by
          cases p with
          | nil => simpa using hp.symm
          | cons q qs => exact absurd hp (by simp)
        subst hwa
        have hsome := tryAtPos_isSome_space hpl hw hR atStart
        simp only [List.cons_append, List.nil_append] at hsome ⊢
        rcases ht : tryAtPos name atStart (w :: (name ++ post)) with _ | m
        · rw [ht] at hsome
          exact absurd hsome (by simp)
        · exact hasMatchAux_cons_some ht
      | cons b pre3 =>
        have hrec : LeftB false (b :: pre3) := by
          cases p with
          | nil => exact absurd hp (by simp)
          | cons q qs =>
            injection hp with h1 h2
            exact Or.inr ⟨qs, w, h2, hw⟩
        have ih := occurs_hasMatch hpl (b :: pre3) post false hrec hR
        show hasMatchAux name atStart (a :: ((b :: pre3) ++ name ++ post)) = true
        rcases ht : tryAtPos name atStart
            (a :: ((b :: pre3) ++ name ++ post)) with _ | m
        · rw [hasMatchAux_cons_none ht]
          exact ih
        · exact hasMatchAux_cons_some ht

theorem hasMatch_occurs {name : Str} (hpl : ∀ c ∈ name, plainChar c = true) :
    ∀ (s : Str) (atStart : Bool), hasMatchAux name atStart s = true →
    OccursFrom name atStart s
  | [], atStart, h => by
    rw [hasMatchAux_nil] at h
    rcases Option.isSome_iff_exists.mp h with ⟨n, hn⟩
    obtain ⟨pre, post, hs, hL, hR, _, _⟩ := tryAtPos_some hpl hn
    exact ⟨pre, post, hs, hL, hR⟩
  | c :: cs, atStart, h => by
    rcases ht : tryAtPos name atStart (c :: cs) with _ | m
    · rw [hasMatchAux_cons_none ht] at h
      obtain ⟨pre2, post2, hs, hL, hR⟩ := hasMatch_occurs hpl cs false h
      have hL2 : ∃ p w, pre2 = p ++ [w] ∧ isJsSpace w = true := by
        rcases hL with ⟨hfalse, _⟩ | h2
        · exact absurd hfalse (by simp)
        · exact h2
      obtain ⟨p, w, hp, hw⟩ := hL2
      exact ⟨c :: pre2, post2, by simp [hs], Or.inr ⟨c :: p, w, by simp [hp], hw⟩, hR⟩
    · obtain ⟨pre, post, hs, hL, hR, _, _⟩ := tryAtPos_some hpl ht
      exact ⟨pre, post, hs, hL, hR⟩

theorem hasMatch_iff {name : Str} (hpl : ∀ c ∈ name, plainChar c = true)
    (s : Str) (atStart : Bool) :
    hasMatchAux name atStart s = true ↔ OccursFrom name atStart s := by
  constructor
  · exact hasMatch_occurs hpl s atStart
  · rintro ⟨pre, post, hs, hL, hR⟩
    rw [hs]
    exact occurs_hasMatch hpl pre post atStart hL hR

theorem replAux_no_match {name : Str} (hpl : ∀ c ∈ name, plainChar c = true) :
    ∀ (s : Str) (atStart : Bool), hasMatchAux name atStart s = false →
    replAux name atStart s = s
  | [], _, _ => rfl
  | c :: cs, atStart, h => by
    rcases ht : tryAtPos name atStart (c :: cs) with _ | m
    · rw [hasMatchAux_cons_none ht] at h
      rw [replAux_cons_none ht, replAux_no_match hpl cs false h]
    · rw [hasMatchAux_cons_some ht] at h
      exact Bool.noConfusion h

theorem replAux_match {name : Str} (hpl : ∀ c ∈ name, plainChar c = true) :
    ∀ (s : Str) (atStart : Bool), hasMatchAux name atStart s = true →
    ∃ pre post, s = pre ++ name ++ post ∧ LeftB atStart pre ∧ RightB post ∧
      replAux name atStart s = pre.dropLast ++ post
  | [], atStart, h => by
    rw [hasMatchAux_nil] at h
    rcases Option.isSome_iff_exists.mp h with ⟨n, hn⟩
    obtain ⟨pre, post, hs, hL, hR, hdrop, hdl⟩ := tryAtPos_some hpl hn
    refine ⟨pre, post, hs, hL, hR, ?_⟩
    have hpost : post = [] := by simpa using hdrop.symm
    rw [show replAux name atStart [] = [] from rfl, hdl, hpost]
    rfl
  | c :: cs, atStart, h => by
    rcases ht : tryAtPos name atStart (c :: cs) with _ | n
    · rw [hasMatchAux_cons_none ht] at h
      obtain ⟨pre2, post2, hs, hL, hR, hrepl⟩ := replAux_match hpl cs false h
      have hL2 : ∃ p w, pre2 = p ++ [w] ∧ isJsSpace w = true := by
        rcases hL with ⟨hfalse, _⟩ | h2
        · exact absurd hfalse (by simp)
        · exact h2
      obtain ⟨p, w, hp, hw⟩ := hL2
      refine ⟨c :: pre2, post2, by simp [hs], Or.inr ⟨c :: p, w, by simp [hp], hw⟩,
        hR, ?_⟩
      rw [replAux_cons_none ht, hrepl, hp]
      rw [show (c :: (p ++ [w]) : Str) = (c :: p) ++ [w] from by simp,
        List.dropLast_concat, List.dropLast_concat]
      simp
    · obtain ⟨pre, post, hs, hL, hR, hdrop, hdl⟩ := tryAtPos_some hpl ht
      refine ⟨pre, post, hs, hL, hR, ?_⟩
      rw [replAux_cons_some ht, hdrop, hdl]
      simp

theorem removeClassElem_self : ∀ {name : Str}, (∀ c ∈ name, plainChar c = true) →
    removeClassElem name name = []
  | [], _ => rfl
  | c :: cs, hpl => by
    have hv : viaCaret (c :: cs) true ((c :: cs) ++ []) = some (c :: cs).length :=
      viaCaret_fires hpl (Or.inl rfl)
    rw [List.append_nil] at hv
    have ht : tryAtPos (c :: cs) true (c :: cs) = some (c :: cs).length := by
      simp only [tryAtPos, hv]
    unfold removeClassElem
    rw [replAux_cons_some ht]
    exact List.drop_length (c :: cs)

/-- Claim C1: refuted by the code — the constructor resolves the selector
into the local `_matches` (here: two elements for the query `"div"`, with
the native query capability available) but never copies `_matches` onto
the instance, so the constructed wrapper has length 0 instead of 2 and,
for a single element reference, does not hold that element. -/
theorem constructor_discards_matches :
    resolveMatches docW (Selector.queryStr divQuery)
      = [DomVal.elemV elemD1, DomVal.elemV elemD2] ∧
    (simpleDOMEngine docW (Selector.queryStr divQuery)).1.elems.length = 0 ∧
    (simpleDOMEngine docW (Selector.objRef elemD1)).1.elems = [] := by
  refine ⟨by decide, rfl, rfl⟩

/-- Claim C2: `each` with a non-callable argument returns `false`
(modelled `none`) and performs no iteration; with a callable argument it
returns the wrapper itself and produces exactly one call per held
element, in resolution order, with the element as receiver and the
zero-based index as sole argument. -/
theorem each_iterates_in_order (eng : Engine) :
    each eng false = (none, []) ∧
    (each eng true).1 = some eng ∧
    ((each eng true).2).length = eng.elems.length ∧
    (∀ i, i < eng.elems.length →
      ((each eng true).2).getD i (dummyElem, 0) = (eng.elems.getD i dummyElem, i)) := by
  refine ⟨rfl, rfl, ?_, ?_⟩
  · simp [each, eachTrace_length]
  · intro i hi
    rw [List.getD_eq_getD_get?, List.getD_eq_getD_get?,
      show (each eng true).2 = eachTrace eng.elems 0 from rfl,
      eachTrace_get eng.elems 0 i]
    rcases hg : eng.elems.get? i with _ | e
    · rw [List.get?_eq_none] at hg
      omega
    · simp [hg]

/-- Witness for C2 on a three-element set: the third call receives the
third element and index 2. -/
theorem each_iterates_in_order_w :
    ((each engThree true).2).getD 2 (dummyElem, 0)
      = (engThree.elems.getD 2 dummyElem, 2) :=
  (each_iterates_in_order engThree).2.2.2 2 (by decide)

/-- Claim C3: refuted by the code — the read form of `attr` on a wrapper
with an empty element set dereferences the missing `this[0]` and throws a
TypeError instead of returning an absent sentinel. -/
theorem attr_read_empty_set_throws :
    attr ⟨Selector.queryStr hashMissing, []⟩ titleAttr none
      = Except.error JsError.typeError := rfl

/-- Claim C4: refuted by the code — writing an attribute that the first
element does not yet expose reaches the creation branch, which executes
`newAttr.value = val` where `val` is undeclared, so the call throws a
ReferenceError instead of attaching the new attribute node. -/
theorem attr_create_branch_throws :
    attr ⟨Selector.queryStr [], [dummyElem]⟩ dataXAttr (some oneVal)
      = Except.error JsError.referenceError := rfl

/-- Claim C5 counterexample: for the whitespace-free class name "a+",
`addClass` then `removeClass` on an element with an empty class
attribute leaves the attribute equal to "a+", not empty — the
interpolated `+` acts as a regex quantifier, and
`/(?:^|\s)a+(?!\S)/` never matches the literal text "a+" (after the
quantifier consumes the "a", the lookahead fails at the "+" and there is
nothing to backtrack to). -/
theorem addClass_removeClass_plus_not_empty :
    (removeClass (addClass engEmptyCls aPlusName) aPlusName).elems.map Elem.className
      = [['a', '+']] ∧
    ' ' ∉ aPlusName ∧ aPlusName ≠ [] := by
  refine ⟨by decide, by decide, by decide⟩

/-- Claim C5 (amended): for a class name consisting of regex-literal
characters (alphanumeric, dash, underscore — in particular containing no
whitespace), `addClass` followed by `removeClass` of that name on an
element whose class attribute is empty (holds no other classes) leaves
the class attribute empty. -/
theorem addClass_removeClass_empty (eng : Engine) (className : Str) (i : Nat)
    (e : Elem) (hpl : ∀ c ∈ className, plainChar c = true)
    (hget : eng.elems.get? i = some e) (hcls : e.className = []) :
    ((removeClass (addClass eng className) className).elems.get? i).map
      Elem.className = some [] := by
  have hg : getClasses e = [] := by simp [getClasses, hcls]
  simp only [removeClass, addClass, List.get?_map, hget, Option.map_some', hg,
    List.nil_append]
  rw [show joinSpace [className] = className from rfl]
  rw [removeClassElem_self hpl]

/-- Witness for C5: adding then removing "foo" on an element with an
empty class attribute gives back an empty class attribute. -/
theorem addClass_removeClass_empty_w :
    ((removeClass (addClass engEmptyCls fooName) fooName).elems.get? 0).map
      Elem.className = some [] :=
  addClass_removeClass_empty engEmptyCls fooName 0 dummyElem (by decide) rfl rfl

/-- Claim C6 counterexample: for the class name "a.c", `hasClass`
returns `true` on a set whose first element's class attribute is "abc",
although "a.c" does not occur in it as a whitespace-delimited token
(it does not occur in it at all) — the unescaped dot matches the "b" —
so the claimed iff fails for this class name. -/
theorem hasClass_metachar_counterexample :
    hasClass engAbc aDotC = true ∧ ¬ OccursFrom aDotC true elemAbc.className := by
  constructor
  · decide
  · rintro ⟨pre, post, heq, _, _⟩
    have hdot : '.' ∈ elemAbc.className := by
      rw [heq]
      simp [aDotC]
    exact absurd hdot (by decide)

/-- Claim C6 (amended): for a class name consisting of regex-literal
characters (alphanumeric, dash, underscore), `hasClass` returns `false`
on an empty set and otherwise returns `true` exactly when the name occurs
as a standalone whitespace-delimited token in the FIRST element's class
attribute, regardless of the remaining elements. -/
theorem hasClass_first_only (className : Str)
    (hpl : ∀ c ∈ className, plainChar c = true) :
    (∀ sel, hasClass ⟨sel, []⟩ className = false) ∧
    (∀ sel e rest, hasClass ⟨sel, e :: rest⟩ className = true ↔
      OccursFrom className true e.className) := by
  refine ⟨fun sel => rfl, fun sel e rest => ?_⟩
  exact hasMatch_iff hpl e.className true

/-- Witness for C6: "foo" is detected in the first element's class
attribute "bar foo" even though a second element follows. -/
theorem hasClass_first_only_w : hasClass engBarFoo fooName = true :=
  ((hasClass_first_only fooName (by decide)).2 (Selector.queryStr [])
    elemBarFoo [dummyElem]).mpr
    ⟨['b', 'a', 'r', ' '], [], by decide,
      Or.inr ⟨['b', 'a', 'r'], ' ', rfl, by decide⟩, Or.inl rfl⟩

/-- Claim C7 (amended): per call, `removeClass` removes only the FIRST
standalone whitespace-delimited occurrence of the (regex-literal) name —
the regex carries no global flag — deleting it together with the single
preceding whitespace character when one exists, and leaves everything
else verbatim; a class attribute without such an occurrence is unchanged;
the operation maps every element of the set. -/
theorem removeClass_first_occurrence (className : Str)
    (hpl : ∀ c ∈ className, plainChar c = true) :
    (∀ eng, (removeClass eng className).elems.map Elem.className
        = eng.elems.map (fun e => removeClassElem className e.className)) ∧
    (∀ s, ¬ OccursFrom className true s → removeClassElem className s = s) ∧
    (∀ s, OccursFrom className true s →
      ∃ pre post, s = pre ++ className ++ post ∧ LeftB true pre ∧ RightB post ∧
        removeClassElem className s = pre.dropLast ++ post) := by
  refine ⟨?_, ?_, ?_⟩
  · intro eng
    simp [removeClass]
  · intro s hno
    rcases hb : hasMatchAux className true s with _ | _
    · exact replAux_no_match hpl s true hb
    · exact absurd ((hasMatch_iff hpl s true).mp hb) hno
  · intro s hocc
    exact replAux_match hpl s true ((hasMatch_iff hpl s true).mpr hocc)

/-- Witness for C7 (amended): a class attribute "xy" without a standalone
"b" token is left unchanged. -/
theorem removeClass_first_occurrence_w : removeClassElem bName xyClass = xyClass :=
  (removeClass_first_occurrence bName (by decide)).2.1 xyClass (by
    rintro ⟨pre, post, heq, _, _⟩
    have hb : 'b' ∈ xyClass := by
      rw [heq]
      simp [bName]
    exact absurd hb (by decide))

/-- Claim C7 counterexample: on the class attribute "a a",
`removeClass("a")` yields " a", in which "a" still occurs as a standalone
whitespace-delimited token — the occurrences are not all removed, only
the first. -/
theorem removeClass_leaves_second_occurrence :
    (removeClass engAA aName).elems.map Elem.className = [[' ', 'a']] ∧
    OccursFrom aName true [' ', 'a'] := by
  refine ⟨by decide, ⟨[' '], [], rfl, Or.inr ⟨[], ' ', rfl, by decide⟩, Or.inl rfl⟩⟩

/-- Claim C8: `addClass` never deduplicates — applying it twice with the
same (regex-literal, nonempty) name appends the name twice, so the
element's class attribute splits into its previous classes followed by
two copies of the name, a duplicate token. -/
theorem addClass_no_dedup (eng : Engine) (className : Str) (i : Nat) (e : Elem)
    (hpl : ∀ c ∈ className, plainChar c = true) (hne : className ≠ [])
    (hget : eng.elems.get? i = some e) :
    ((addClass (addClass eng className) className).elems.get? i).map
        (fun e2 => splitOnSpace e2.className)
      = some (getClasses e ++ [className, className]) ∧
    2 ≤ List.count className (getClasses e ++ [className, className]) := by
  have hnosp : ' ' ∉ className := fun hm => plainChar_ne_space (hpl ' ' hm) rfl
  have hpieces : ∀ x ∈ getClasses e, ' ' ∉ x := by
    intro x hx
    by_cases hc : e.className = []
    · simp [getClasses, hc] at hx
    · simp only [getClasses, if_neg hc] at hx
      exact splitOnSpace_no_space e.className x hx
  have hp1 : ∀ x ∈ getClasses e ++ [className], ' ' ∉ x := by
    intro x hx
    rcases List.mem_append.mp hx with h | h
    · exact hpieces x h
    · rw [List.mem_singleton] at h
      rw [h]
      exact hnosp
  have hne1 : joinSpace (getClasses e ++ [className]) ≠ [] :=
    joinSpace_concat_ne_nil _ _ hne
  have ha1 : splitOnSpace (joinSpace (getClasses e ++ [className]))
      = getClasses e ++ [className] :=
    splitOnSpace_joinSpace _ (by simp) hp1
  have hg1 : getClasses { e with
      className := joinSpace (getClasses e ++ [className]) }
      = getClasses e ++ [className] := by
    rw [show getClasses { e with
        className := joinSpace (getClasses e ++ [className]) }
      = if joinSpace (getClasses e ++ [className]) = [] then []
        else splitOnSpace (joinSpace (getClasses e ++ [className])) from rfl]
    rw [if_neg hne1]
    exact ha1
  constructor
  · simp only [addClass, List.get?_map, hget, Option.map_some']
    rw [hg1]
    rw [splitOnSpace_joinSpace ((getClasses e ++ [className]) ++ [className])
      (by simp) ?hpc]
    case hpc =>
      intro x hx
      rcases List.mem_append.mp hx with h | h
      · exact hp1 x h
      · rw [List.mem_singleton] at h
        rw [h]
        exact hnosp
    simp
  · rw [List.count_append]
    have h2 : List.count className [className, className] = 2 := by
      simp [List.count_cons]
    omega

/-- Witness for C8: adding "foo" twice to an element with an empty class
attribute produces the duplicate token list [foo, foo]. -/
theorem addClass_no_dedup_w :
    ((addClass (addClass engEmptyCls fooName) fooName).elems.get? 0).map
        (fun e2 => splitOnSpace e2.className)
      = some (getClasses dummyElem ++ [fooName, fooName]) ∧
    2 ≤ List.count fooName (getClasses dummyElem ++ [fooName, fooName]) :=
  addClass_no_dedup engEmptyCls fooName 0 dummyElem (by decide) (by decide) rfl

/-- Claim C9: `ready` is a no-op for a non-callable argument; for a
callable one it overwrites the single `onreadystatechange` slot (last
caller wins), and the installed handler invokes the stored callback
exactly when the document's load state is "complete" or "loaded". -/
theorem ready_single_slot :
    (∀ doc cid, ready doc false cid = doc) ∧
    (∀ doc cid, (ready doc true cid).onreadystatechange = some cid) ∧
    (∀ doc c1 c2, (ready (ready doc true c1) true c2).onreadystatechange = some c2) ∧
    (∀ doc cid, doc.onreadystatechange = some cid →
      ((doc.readyState = completeState ∨ doc.readyState = loadedState) →
        fireReadyStateChange doc = [cid]) ∧
      (¬ (doc.readyState = completeState ∨ doc.readyState = loadedState) →
        fireReadyStateChange doc = [])) := by
  refine ⟨fun doc cid => rfl, fun doc cid => rfl, fun doc c1 c2 => rfl, ?_⟩
  intro doc cid h
  constructor
  · intro hs
    simp only [fireReadyStateChange, h, if_pos hs]
  · intro hs
    simp only [fireReadyStateChange, h, if_neg hs]

/-- Witness for C9: on a document in state "complete" whose slot holds
callback 7, the handler fires exactly that callback. -/
theorem ready_single_slot_w : fireReadyStateChange docReady = [7] :=
  (ready_single_slot.2.2.2 docReady 7 rfl).1 (Or.inl rfl)

/-- Claim C10: the class name is interpolated into the regex without
escaping, so for the name "a.c" (dot is a wildcard) `hasClass` reports a
match on a first element whose class attribute "abc" does not contain
"a.c" literally, and `removeClass` removes the token "abc", which differs
from the given name. -/
theorem unescaped_metachar_matches :
    hasClass engAbc aDotC = true ∧
    aDotC ∉ splitOnSpace elemAbc.className ∧
    (removeClass engAbc aDotC).elems.map Elem.className = [[]] ∧
    elemAbc.className ≠ aDotC := by
  refine ⟨by decide, by decide, by decide, by decide⟩

end SimpleDOM
